import Mathlib

/-!
Verification of the `wasmuri-core` utility subsystems.

Part 1 models `src/util/region.rs`: the `Region` struct (an axis-aligned
rectangle with inclusive integer bounds) and its operations
`intersects_with`, `is_covered_by`, `is_inside` and
`get_uncovered_regions`.

The Rust code uses `i32` coordinates.  We model them with unbounded `Int`:
the only arithmetic the code performs is `region.min_x - 1`,
`region.max_x + 1`, `region.min_y - 1`, `region.max_y + 1`, and each of
these is computed only under a guard (`uncovered.min_x < region.min_x`
etc.) that forces the operand strictly away from the i32 extreme in the
direction of the operation, so no i32 overflow can occur and the `Int`
model agrees with the machine behaviour on every input.

Part 2 models `src/util/weak_vec.rs`: `WeakVec` and `WeakMetaVec` and
their `push` / `for_each_cell` / `for_each` / `for_each_mut` operations.
-/

/-- The `Region` struct of `src/util/region.rs`: a rectangle with
bottom-left corner `(min_x, min_y)` and top-right corner `(max_x, max_y)`,
both corners included. -/
structure Region where
  min_x : Int
  min_y : Int
  max_x : Int
  max_y : Int
deriving DecidableEq, Repr

namespace Region

/-- `Region::intersects_with`. -/
def intersects_with (self other : Region) : Bool :=
  self.min_x ≤ other.max_x && self.min_y ≤ other.max_y &&
    other.min_x ≤ self.max_x && other.min_y ≤ self.max_y

/-- `Region::is_covered_by`. -/
def is_covered_by (self cover : Region) : Bool :=
  self.min_x ≥ cover.min_x && self.min_y ≥ cover.min_y &&
    self.max_x ≤ cover.max_x && self.max_y ≤ cover.max_y

/-- `Region::is_inside`. -/
def is_inside (self : Region) (point : Int × Int) : Bool :=
  point.1 ≥ self.min_x && point.1 ≤ self.max_x &&
    point.2 ≥ self.min_y && point.2 ≤ self.max_y

/-- The four candidate remainder rectangles pushed onto `uncovered_to_add`
in the partially-overlapping branch of `Region::get_uncovered_regions`,
in source order: left, right, below, above. -/
def split_around (uncovered region : Region) : List Region :=
  (if uncovered.min_x < region.min_x then
    [⟨uncovered.min_x, uncovered.min_y, region.min_x - 1, uncovered.max_y⟩] else []) ++
  (if uncovered.max_x > region.max_x then
    [⟨region.max_x + 1, uncovered.min_y, uncovered.max_x, uncovered.max_y⟩] else []) ++
  (if uncovered.min_y < region.min_y then
    [⟨max region.min_x uncovered.min_x, uncovered.min_y,
      min region.max_x uncovered.max_x, region.min_y - 1⟩] else []) ++
  (if uncovered.max_y > region.max_y then
    [⟨max region.min_x uncovered.min_x, region.max_y + 1,
      min region.max_x uncovered.max_x, uncovered.max_y⟩] else [])

/-- The fragments contributed by one working rectangle `u` while the
`drain_filter` closure of `get_uncovered_regions` processes one cover:
a fully covered rectangle is dropped, a partially overlapping rectangle
adds its `split_around` pieces, a disjoint rectangle adds nothing
(it is kept in place instead, see `cover_one`). -/
def frag (u region : Region) : List Region :=
  if u.is_covered_by region then []
  else if u.intersects_with region then split_around u region
  else []

/-- One iteration of the `for region in regions` loop of
`get_uncovered_regions`: `drain_filter` keeps exactly the working
rectangles that are neither covered by nor intersecting the cover, and
then `uncovered_to_add` (the fragments, in generation order) is appended. -/
def cover_one (ws : List Region) (region : Region) : List Region :=
  ws.filter (fun u => !(u.is_covered_by region) && !(u.intersects_with region)) ++
    ws.flatMap (fun u => frag u region)

/-- `Region::get_uncovered_regions`. -/
def get_uncovered_regions (self : Region) (regions : List Region) : List Region :=
  regions.foldl cover_one [self]

/-- A region with ordered bounds (the intended invariant of §3 of the
design notes: `min_x <= max_x` and `min_y <= max_y`). -/
def valid (r : Region) : Prop := r.min_x ≤ r.max_x ∧ r.min_y ≤ r.max_y

instance (r : Region) : Decidable r.valid := by
  unfold valid; infer_instance

/-- Two regions share no integer point. -/
def noOverlap (a b : Region) : Prop :=
  ∀ p : Int × Int, ¬(a.is_inside p = true ∧ b.is_inside p = true)

/-- Some region of the list contains the point. -/
def inUnion (l : List Region) (p : Int × Int) : Prop :=
  ∃ u ∈ l, u.is_inside p = true

end Region

/-!
Model of `src/util/weak_vec.rs`.

A `Weak<RefCell<T>>` is modelled as a cell id (`Nat`) into an ambient
`Heap`: `alive i` says whether at least one strong `Rc` to cell `i` still
exists (so `upgrade` succeeds), and `value i` is the current content of
cell `i`.  The visitor closures of the Rust code are `FnMut`, so they
carry mutable captured state: we model a closure as a function threading
an explicit state `S`.  A closure receives the upgraded cell — its
identity plus (borrowed) access to its content — and in `for_each_cell`
returns the new content together with the removal decision.  All claims
under verification concern executions in which strong holders are
dropped only between iteration calls, so `alive` is constant during one
call, which the model reflects.
-/

/-- The ambient store of shared cells: liveness and current value of
every cell id. -/
structure Heap (T : Type) where
  alive : Nat → Bool
  value : Nat → T

/-- Outcome of one `for_each_cell` closure invocation on a `WeakVec`:
updated closure state, updated cell content, and whether the entry
should be removed even though its target is alive. -/
structure CellVisit (S T : Type) where
  state : S
  value : T
  remove : Bool

/-- `WeakVec<T>`: an ordered list of weak handles. -/
structure WeakVec where
  vec : List Nat

/-- `WeakVec::push`. -/
def WeakVec.push (w : WeakVec) (element : Nat) : WeakVec :=
  ⟨w.vec ++ [element]⟩

/-- The observable outcome of one iteration call: the surviving entry
list, the final heap, the final closure state, and the list of entries
on which the closure was invoked, in invocation order. -/
structure IterResult (S T : Type) where
  vec : List Nat
  heap : Heap T
  state : S
  visited : List Nat

/-- The `drain_filter` loop of `WeakVec::for_each_cell`: each entry is
resolved against the heap; a dead entry is dropped without invoking the
closure; a live entry is passed to the closure (which may update the
cell content and the closure state) and kept iff the closure returns
`false`. -/
def forEachCellGo {S T : Type} (closure : S → Nat → T → CellVisit S T) :
    List Nat → Heap T → S → IterResult S T
  | [], h, s => ⟨[], h, s, []⟩
  | e :: rest, h, s =>
    if h.alive e then
      let v := closure s e (h.value e)
      let h2 : Heap T := ⟨h.alive, fun i => if i = e then v.value else h.value i⟩
      let res := forEachCellGo closure rest h2 v.state
      ⟨if v.remove then res.vec else e :: res.vec, res.heap, res.state, e :: res.visited⟩
    else
      forEachCellGo closure rest h s

/-- `WeakVec::for_each_cell`. -/
def WeakVec.for_each_cell {S T : Type} (w : WeakVec) (h : Heap T) (s : S)
    (closure : S → Nat → T → CellVisit S T) : IterResult S T :=
  forEachCellGo closure w.vec h s

/-- `WeakVec::for_each`: wraps the visitor in a `for_each_cell` closure
that borrows the value immutably and always returns `false`. -/
def WeakVec.for_each {S T : Type} (w : WeakVec) (h : Heap T) (s : S)
    (closure : S → T → S) : IterResult S T :=
  w.for_each_cell h s (fun s' _ t => ⟨closure s' t, t, false⟩)

/-- `WeakVec::for_each_mut`: wraps the visitor in a `for_each_cell`
closure that borrows the value mutably and always returns `false`. -/
def WeakVec.for_each_mut {S T : Type} (w : WeakVec) (h : Heap T) (s : S)
    (closure : S → T → S × T) : IterResult S T :=
  w.for_each_cell h s (fun s' _ t => ⟨(closure s' t).1, (closure s' t).2, false⟩)

/-- Outcome of one `for_each_cell` closure invocation on a
`WeakMetaVec`: it may also update the entry's metadata. -/
structure MetaCellVisit (S T M : Type) where
  state : S
  value : T
  metadata : M
  remove : Bool

/-- `WeakMetaVec<T, M>`: an ordered list of `WeakMetaHandle`s, i.e. of
weak handles paired with registry-owned metadata. -/
structure WeakMetaVec (M : Type) where
  vec : List (Nat × M)

/-- `WeakMetaVec::push`. -/
def WeakMetaVec.push {M : Type} (w : WeakMetaVec M) (weak_cell : Nat)
    (metadata : M) : WeakMetaVec M :=
  ⟨w.vec ++ [(weak_cell, metadata)]⟩

/-- The observable outcome of one iteration call on a `WeakMetaVec`;
`visited` records each visited handle together with the metadata value
presented to the closure for it. -/
structure MetaIterResult (S T M : Type) where
  vec : List (Nat × M)
  heap : Heap T
  state : S
  visited : List (Nat × M)

/-- The `drain_filter` loop of `WeakMetaVec::for_each_cell`; identical
to the plain variant except that the closure also receives mutable
access to the entry's metadata. -/
def forEachMetaCellGo {S T M : Type} (closure : S → Nat → T → M → MetaCellVisit S T M) :
    List (Nat × M) → Heap T → S → MetaIterResult S T M
  | [], h, s => ⟨[], h, s, []⟩
  | (e, m) :: rest, h, s =>
    if h.alive e then
      let v := closure s e (h.value e) m
      let h2 : Heap T := ⟨h.alive, fun i => if i = e then v.value else h.value i⟩
      let res := forEachMetaCellGo closure rest h2 v.state
      ⟨if v.remove then res.vec else (e, v.metadata) :: res.vec,
        res.heap, res.state, (e, m) :: res.visited⟩
    else
      forEachMetaCellGo closure rest h s

/-- `WeakMetaVec::for_each_cell`. -/
def WeakMetaVec.for_each_cell {S T M : Type} (w : WeakMetaVec M) (h : Heap T)
    (s : S) (closure : S → Nat → T → M → MetaCellVisit S T M) :
    MetaIterResult S T M :=
  forEachMetaCellGo closure w.vec h s

/-- `WeakMetaVec::for_each`. -/
def WeakMetaVec.for_each {S T M : Type} (w : WeakMetaVec M) (h : Heap T)
    (s : S) (closure : S → T → M → S) : MetaIterResult S T M :=
  w.for_each_cell h s (fun s' _ t m => ⟨closure s' t m, t, m, false⟩)

/-- `WeakMetaVec::for_each_mut`. -/
def WeakMetaVec.for_each_mut {S T M : Type} (w : WeakMetaVec M) (h : Heap T)
    (s : S) (closure : S → T → M → S × T × M) : MetaIterResult S T M :=
  w.for_each_cell h s (fun s' _ t m =>
    ⟨(closure s' t m).1, (closure s' t m).2.1, (closure s' t m).2.2, false⟩)

/-- The sequence of closure outcomes of one `WeakMetaVec::for_each_cell`
call, replayed from its visit trace: since dead entries are skipped
without touching the closure state or any cell, replaying only the
visited entries from the call's initial heap and closure state computes
exactly the outcome of each visit (`forEachMetaCellGo_vec_pairing`
proves the correspondence).  Used to observe, for a fully arbitrary
closure, which metadata value the closure returned for each individual
entry's visit. -/
def replayVisits {S T M : Type} (closure : S → Nat → T → M → MetaCellVisit S T M) :
    List (Nat × M) → Heap T → S → List (MetaCellVisit S T M)
  | [], _, _ => []
  | (e, m) :: rest, h, s =>
    let v := closure s e (h.value e) m
    v :: replayVisits closure rest
      ⟨h.alive, fun i => if i = e then v.value else h.value i⟩ v.state

namespace Region

/-- Arithmetic characterization of `is_inside`. -/
theorem is_inside_iff {r : Region} {p : Int × Int} :
    r.is_inside p = true ↔
      r.min_x ≤ p.1 ∧ p.1 ≤ r.max_x ∧ r.min_y ≤ p.2 ∧ p.2 ≤ r.max_y := by
  simp [is_inside, and_assoc]

/-- Arithmetic characterization of a failing `is_inside`. -/
theorem is_inside_eq_false {r : Region} {p : Int × Int} :
    r.is_inside p = false ↔
      ¬(r.min_x ≤ p.1 ∧ p.1 ≤ r.max_x ∧ r.min_y ≤ p.2 ∧ p.2 ≤ r.max_y) := by
  rw [← is_inside_iff]
  cases h : r.is_inside p <;> simp

/-- Arithmetic characterization of `intersects_with`. -/
theorem intersects_with_iff {a b : Region} :
    a.intersects_with b = true ↔
      a.min_x ≤ b.max_x ∧ a.min_y ≤ b.max_y ∧ b.min_x ≤ a.max_x ∧ b.min_y ≤ a.max_y := by
  simp [intersects_with, and_assoc]

/-- Arithmetic characterization of `is_covered_by`. -/
theorem is_covered_by_iff {a b : Region} :
    a.is_covered_by b = true ↔
      b.min_x ≤ a.min_x ∧ b.min_y ≤ a.min_y ∧ a.max_x ≤ b.max_x ∧ a.max_y ≤ b.max_y := by
  simp [is_covered_by, and_assoc]

/-- `noOverlap` is symmetric. -/
theorem noOverlap_symm : Symmetric noOverlap :=
  fun _ _ h p hp => h p ⟨hp.2, hp.1⟩

/-- Membership in an optional singleton produced by an `if`. -/
theorem mem_opt {c : Prop} [Decidable c] {x a : Region}
    (h : a ∈ (if c then [x] else [])) : c ∧ a = x := by
  by_cases hc : c
  · simp [hc] at h
    exact ⟨hc, h⟩
  · simp [hc] at h

/-- `inUnion` distributes over list append. -/
theorem inUnion_append {l1 l2 : List Region} {p : Int × Int} :
    inUnion (l1 ++ l2) p ↔ inUnion l1 p ∨ inUnion l2 p := by
  constructor
  · rintro ⟨u, hu, hp⟩
    rcases List.mem_append.1 hu with h | h
    · exact Or.inl ⟨u, h, hp⟩
    · exact Or.inr ⟨u, h, hp⟩
  · rintro (⟨u, hu, hp⟩ | ⟨u, hu, hp⟩)
    · exact ⟨u, List.mem_append.2 (Or.inl hu), hp⟩
    · exact ⟨u, List.mem_append.2 (Or.inr hu), hp⟩

/-- `inUnion` over an optional singleton. -/
theorem inUnion_opt {c : Prop} [Decidable c] {x : Region} {p : Int × Int} :
    inUnion (if c then [x] else []) p ↔ c ∧ x.is_inside p = true := by
  by_cases hc : c <;> simp [inUnion, hc]

/-- Case analysis for membership in `split_around`. -/
theorem mem_split_around {u r f : Region} (hf : f ∈ split_around u r) :
    (u.min_x < r.min_x ∧ f = ⟨u.min_x, u.min_y, r.min_x - 1, u.max_y⟩) ∨
    (u.max_x > r.max_x ∧ f = ⟨r.max_x + 1, u.min_y, u.max_x, u.max_y⟩) ∨
    (u.min_y < r.min_y ∧
      f = ⟨max r.min_x u.min_x, u.min_y, min r.max_x u.max_x, r.min_y - 1⟩) ∨
    (u.max_y > r.max_y ∧
      f = ⟨max r.min_x u.min_x, r.max_y + 1, min r.max_x u.max_x, u.max_y⟩) := by
  simp only [split_around, List.mem_append, or_assoc] at hf
  rcases hf with hf | hf | hf | hf
  · exact Or.inl (mem_opt hf)
  · exact Or.inr (Or.inl (mem_opt hf))
  · exact Or.inr (Or.inr (Or.inl (mem_opt hf)))
  · exact Or.inr (Or.inr (Or.inr (mem_opt hf)))

/-- Every rectangle emitted by `split_around` has ordered bounds,
provided the working rectangle is valid, the cover is valid and the two
actually intersect. -/
theorem valid_split_around {u r : Region} (hu : u.valid) (hr : r.valid)
    (hint : u.intersects_with r = true) :
    ∀ f ∈ split_around u r, f.valid := by
  intro f hf
  obtain ⟨hux, huy⟩ := hu
  obtain ⟨hrx, hry⟩ := hr
  rw [intersects_with_iff] at hint
  rcases mem_split_around hf with ⟨hc, rfl⟩ | ⟨hc, rfl⟩ | ⟨hc, rfl⟩ | ⟨hc, rfl⟩ <;>
    constructor <;> simp <;> omega

/-- Every rectangle emitted by `split_around` is contained in the
working rectangle. -/
theorem split_around_subset {u r f : Region} (hu : u.valid) (hr : r.valid)
    (hint : u.intersects_with r = true) (hf : f ∈ split_around u r) :
    ∀ p : Int × Int, f.is_inside p = true → u.is_inside p = true := by
  intro p hp
  obtain ⟨hux, huy⟩ := hu
  obtain ⟨hrx, hry⟩ := hr
  rw [intersects_with_iff] at hint
  rw [is_inside_iff] at hp ⊢
  rcases mem_split_around hf with ⟨hc, rfl⟩ | ⟨hc, rfl⟩ | ⟨hc, rfl⟩ | ⟨hc, rfl⟩ <;>
    simp at hp <;> omega

/-- The rectangles emitted by `split_around` cover exactly the part of
the working rectangle that the cover leaves uncovered. -/
theorem inUnion_split_around {u r : Region} (hu : u.valid) (hr : r.valid)
    (hint : u.intersects_with r = true) (p : Int × Int) :
    inUnion (split_around u r) p ↔
      (u.is_inside p = true ∧ r.is_inside p = false) := by
  obtain ⟨hux, huy⟩ := hu
  obtain ⟨hrx, hry⟩ := hr
  rw [intersects_with_iff] at hint
  unfold split_around
  rw [inUnion_append, inUnion_append, inUnion_append,
    inUnion_opt, inUnion_opt, inUnion_opt, inUnion_opt]
  simp only [is_inside_iff, is_inside_eq_false]
  constructor
  · intro h
    rcases h with ((⟨hc, hp⟩ | ⟨hc, hp⟩) | ⟨hc, hp⟩) | ⟨hc, hp⟩ <;>
      (try simp at hp) <;> refine ⟨by omega, by omega⟩
  · rintro ⟨hin, hout⟩
    by_cases hl : u.min_x < r.min_x ∧ p.1 < r.min_x
    · exact Or.inl (Or.inl (Or.inl ⟨hl.1, by omega⟩))
    · by_cases hrt : u.max_x > r.max_x ∧ p.1 > r.max_x
      · exact Or.inl (Or.inl (Or.inr ⟨hrt.1, by omega⟩))
      · by_cases hb : u.min_y < r.min_y ∧ p.2 < r.min_y
        · exact Or.inl (Or.inr ⟨hb.1, by (try simp); omega⟩)
        · exact Or.inr ⟨by omega, by (try simp); omega⟩

/-- The rectangles emitted by `split_around` are pairwise
non-overlapping. -/
theorem pairwise_split_around {u r : Region} (hu : u.valid) (hr : r.valid) :
    List.Pairwise noOverlap (split_around u r) := by
  obtain ⟨hux, huy⟩ := hu
  obtain ⟨hrx, hry⟩ := hr
  have hopt : ∀ (c : Prop) [Decidable c] (x : Region),
      List.Pairwise noOverlap (if c then [x] else []) := by
    intro c _ x
    by_cases hc : c <;> simp [hc]
  unfold split_around
  refine List.pairwise_append.2 ⟨List.pairwise_append.2 ⟨List.pairwise_append.2
    ⟨hopt _ _, hopt _ _, ?_⟩, hopt _ _, ?_⟩, hopt _ _, ?_⟩ <;>
    intro a ha b hb
  · obtain ⟨hca, rfl⟩ := mem_opt ha
    obtain ⟨hcb, rfl⟩ := mem_opt hb
    intro p hp
    obtain ⟨hpa, hpb⟩ := hp
    rw [is_inside_iff] at hpa hpb
    simp at hpa hpb
    omega
  · obtain ⟨hcb, rfl⟩ := mem_opt hb
    rcases List.mem_append.1 ha with ha | ha <;> obtain ⟨hca, rfl⟩ := mem_opt ha <;>
      (intro p hp
       obtain ⟨hpa, hpb⟩ := hp
       rw [is_inside_iff] at hpa hpb
       simp at hpa hpb
       omega)
  · obtain ⟨hcb, rfl⟩ := mem_opt hb
    rcases List.mem_append.1 ha with ha | ha
    · rcases List.mem_append.1 ha with ha | ha <;> obtain ⟨hca, rfl⟩ := mem_opt ha <;>
        (intro p hp
         obtain ⟨hpa, hpb⟩ := hp
         rw [is_inside_iff] at hpa hpb
         simp at hpa hpb
         omega)
    · obtain ⟨hca, rfl⟩ := mem_opt ha
      intro p hp
      obtain ⟨hpa, hpb⟩ := hp
      rw [is_inside_iff] at hpa hpb
      simp at hpa hpb
      omega

/-- Arithmetic characterization of a failing `intersects_with`. -/
theorem intersects_with_eq_false {a b : Region} :
    a.intersects_with b = false ↔
      ¬(a.min_x ≤ b.max_x ∧ a.min_y ≤ b.max_y ∧ b.min_x ≤ a.max_x ∧ b.min_y ≤ a.max_y) := by
  rw [← intersects_with_iff]
  cases h : a.intersects_with b <;> simp

/-- Every fragment produced by `frag` is contained in the working
rectangle it came from. -/
theorem frag_subset {u r f : Region} (hu : u.valid) (hr : r.valid)
    (hf : f ∈ frag u r) :
    ∀ p : Int × Int, f.is_inside p = true → u.is_inside p = true := by
  unfold frag at hf
  by_cases hcov : u.is_covered_by r = true
  · simp [hcov] at hf
  · by_cases hint : u.intersects_with r = true
    · simp [hcov, hint] at hf
      exact split_around_subset hu hr hint hf
    · simp [hcov, hint] at hf

/-- Every fragment produced by `frag` has ordered bounds. -/
theorem frag_valid {u r f : Region} (hu : u.valid) (hr : r.valid)
    (hf : f ∈ frag u r) : f.valid := by
  unfold frag at hf
  by_cases hcov : u.is_covered_by r = true
  · simp [hcov] at hf
  · by_cases hint : u.intersects_with r = true
    · simp [hcov, hint] at hf
      exact valid_split_around hu hr hint f hf
    · simp [hcov, hint] at hf

/-- The fragments produced by `frag` are pairwise non-overlapping. -/
theorem frag_pairwise {u r : Region} (hu : u.valid) (hr : r.valid) :
    List.Pairwise noOverlap (frag u r) := by
  unfold frag
  by_cases hcov : u.is_covered_by r = true
  · simp [hcov]
  · by_cases hint : u.intersects_with r = true
    · simp only [hcov, hint, if_true, if_false]
      simp only [Bool.not_eq_true] at hcov
      simp [hcov]
      exact pairwise_split_around hu hr
    · simp [hcov, hint]

/-- One pass of the cover loop removes exactly the points of the cover:
a point lies in the new working list iff it lay in the old working list
and outside the cover. -/
theorem inUnion_cover_one {ws : List Region} {r : Region}
    (hws : ∀ u ∈ ws, u.valid) (hr : r.valid) (p : Int × Int) :
    inUnion (cover_one ws r) p ↔ (inUnion ws p ∧ r.is_inside p = false) := by
  unfold cover_one
  rw [inUnion_append]
  constructor
  · rintro (⟨u, hu, hp⟩ | ⟨f, hf, hp⟩)
    · rw [List.mem_filter] at hu
      obtain ⟨humem, hcond⟩ := hu
      simp only [Bool.and_eq_true, Bool.not_eq_true'] at hcond
      refine ⟨⟨u, humem, hp⟩, ?_⟩
      rw [intersects_with_eq_false] at hcond
      rw [is_inside_iff] at hp
      rw [is_inside_eq_false]
      have h2 := hcond.2
      omega
    · rw [List.mem_flatMap] at hf
      obtain ⟨u, humem, hfu⟩ := hf
      have huv := hws u humem
      unfold frag at hfu
      by_cases hcov : u.is_covered_by r = true
      · simp [hcov] at hfu
      · by_cases hint : u.intersects_with r = true
        · simp [hcov, hint] at hfu
          have h2 := (inUnion_split_around huv hr hint p).1 ⟨f, hfu, hp⟩
          exact ⟨⟨u, humem, h2.1⟩, h2.2⟩
        · simp [hcov, hint] at hfu
  · rintro ⟨⟨u, humem, hp⟩, hnr⟩
    have huv := hws u humem
    by_cases hcov : u.is_covered_by r = true
    · exfalso
      rw [is_covered_by_iff] at hcov
      rw [is_inside_iff] at hp
      rw [is_inside_eq_false] at hnr
      omega
    · by_cases hint : u.intersects_with r = true
      · right
        obtain ⟨f, hfsplit, hfp⟩ := (inUnion_split_around huv hr hint p).2 ⟨hp, hnr⟩
        refine ⟨f, ?_, hfp⟩
        rw [List.mem_flatMap]
        refine ⟨u, humem, ?_⟩
        simp [frag, hcov, hint]
        exact hfsplit
      · left
        refine ⟨u, ?_, hp⟩
        rw [List.mem_filter]
        refine ⟨humem, ?_⟩
        simp only [Bool.not_eq_true] at hcov hint
        simp [hcov, hint]

/-- One pass of the cover loop keeps every working rectangle valid. -/
theorem valid_cover_one {ws : List Region} {r : Region}
    (hws : ∀ u ∈ ws, u.valid) (hr : r.valid) :
    ∀ f ∈ cover_one ws r, f.valid := by
  intro f hf
  unfold cover_one at hf
  rcases List.mem_append.1 hf with hf | hf
  · rw [List.mem_filter] at hf
    exact hws f hf.1
  · rw [List.mem_flatMap] at hf
    obtain ⟨u, humem, hfu⟩ := hf
    exact frag_valid (hws u humem) hr hfu

/-- One pass of the cover loop keeps the working list pairwise
non-overlapping. -/
theorem pairwise_cover_one {ws : List Region} {r : Region}
    (hws : ∀ u ∈ ws, u.valid) (hr : r.valid)
    (hpw : List.Pairwise noOverlap ws) :
    List.Pairwise noOverlap (cover_one ws r) := by
  unfold cover_one
  rw [List.pairwise_append]
  refine ⟨List.Pairwise.sublist (List.filter_sublist _) hpw, ?_, ?_⟩
  · rw [List.flatMap_def, List.pairwise_flatten]
    constructor
    · intro l hl
      rw [List.mem_map] at hl
      obtain ⟨u, humem, rfl⟩ := hl
      exact frag_pairwise (hws u humem) hr
    · rw [List.pairwise_map]
      refine List.Pairwise.imp_of_mem ?_ hpw
      intro a b hamem hbmem hab x hx y hy
      intro p hp
      exact hab p ⟨frag_subset (hws a hamem) hr hx p hp.1,
        frag_subset (hws b hbmem) hr hy p hp.2⟩
  · intro a ha b hb
    rw [List.mem_filter] at ha
    obtain ⟨hamem, hacond⟩ := ha
    rw [List.mem_flatMap] at hb
    obtain ⟨u, humem, hbu⟩ := hb
    by_cases heq : a = u
    · exfalso
      subst heq
      simp only [Bool.and_eq_true, Bool.not_eq_true'] at hacond
      simp [frag, hacond.1, hacond.2] at hbu
    · have hnov : noOverlap a u :=
        List.Pairwise.forall noOverlap_symm hpw hamem humem heq
      intro p hp
      exact hnov p ⟨hp.1, frag_subset (hws u humem) hr hbu p hp.2⟩

/-- The full fold of `get_uncovered_regions`: starting from a valid,
pairwise non-overlapping working list, after processing all valid covers
the result is valid, pairwise non-overlapping, and covers exactly the
points of the original list outside every cover. -/
theorem foldl_cover_one_props :
    ∀ (covers : List Region) (ws : List Region),
      (∀ c ∈ covers, c.valid) → (∀ u ∈ ws, u.valid) →
      List.Pairwise noOverlap ws →
      (∀ f ∈ covers.foldl cover_one ws, f.valid) ∧
      List.Pairwise noOverlap (covers.foldl cover_one ws) ∧
      (∀ p : Int × Int, inUnion (covers.foldl cover_one ws) p ↔
        (inUnion ws p ∧ ∀ c ∈ covers, c.is_inside p = false)) := by
  intro covers
  induction covers with
  | nil =>
    intro ws _ hws hpw
    refine ⟨hws, hpw, fun p => ?_⟩
    simp
  | cons c rest ih =>
    intro ws hc hws hpw
    have hcv : c.valid := hc c (List.mem_cons_self c rest)
    have hrest : ∀ c' ∈ rest, c'.valid := fun c' h => hc c' (List.mem_cons_of_mem c h)
    rw [List.foldl_cons]
    obtain ⟨ihv, ihpw, ihun⟩ :=
      ih (cover_one ws c) hrest (valid_cover_one hws hcv) (pairwise_cover_one hws hcv hpw)
    refine ⟨ihv, ihpw, fun p => ?_⟩
    rw [ihun p, inUnion_cover_one hws hcv p]
    simp only [List.forall_mem_cons]
    tauto

end Region

/-- C2: For the specific region `R = (10,0,40,50)` and the cover list
`[(-10,-20,19,80), (31,-10,60,70), (-10,41,100,60), (0,-70,50,9)]`,
`R.get_uncovered_regions` returns exactly `[(20,10,30,40)]`. -/
theorem uncovered_regions_four_sided_example :
    Region.get_uncovered_regions ⟨10, 0, 40, 50⟩
      [⟨-10, -20, 19, 80⟩, ⟨31, -10, 60, 70⟩, ⟨-10, 41, 100, 60⟩, ⟨0, -70, 50, 9⟩] =
      [⟨20, 10, 30, 40⟩] := by
  decide

/-- C4: for every region with ordered bounds, `is_covered_by` is
reflexive, and for every pair of regions with ordered bounds,
`intersects_with` is symmetric. -/
theorem is_covered_by_refl_and_intersects_with_symm :
    (∀ r : Region, r.valid → r.is_covered_by r = true) ∧
    (∀ a b : Region, a.valid → b.valid →
      a.intersects_with b = b.intersects_with a) := by
  constructor
  · intro r _
    simp [Region.is_covered_by]
  · intro a b _ _
    simp only [Region.intersects_with]
    by_cases h1 : a.min_x ≤ b.max_x <;>
      by_cases h2 : a.min_y ≤ b.max_y <;>
      by_cases h3 : b.min_x ≤ a.max_x <;>
      by_cases h4 : b.min_y ≤ a.max_y <;>
      simp [h1, h2, h3, h4]

/-- Witness for C4 at a concrete pair of valid regions. -/
theorem is_covered_by_refl_and_intersects_with_symm_witness :
    Region.valid ⟨0, 0, 3, 4⟩ ∧ Region.valid ⟨2, 2, 9, 9⟩ ∧
      Region.is_covered_by ⟨0, 0, 3, 4⟩ ⟨0, 0, 3, 4⟩ = true ∧
      Region.intersects_with ⟨0, 0, 3, 4⟩ ⟨2, 2, 9, 9⟩ =
        Region.intersects_with ⟨2, 2, 9, 9⟩ ⟨0, 0, 3, 4⟩ :=
  ⟨by decide, by decide,
    is_covered_by_refl_and_intersects_with_symm.1 ⟨0, 0, 3, 4⟩ (by decide),
    is_covered_by_refl_and_intersects_with_symm.2 ⟨0, 0, 3, 4⟩ ⟨2, 2, 9, 9⟩
      (by decide) (by decide)⟩

/-- C9: `is_covered_by` is transitive and antisymmetric (up to structural
equality) on regions with ordered bounds. -/
theorem is_covered_by_partial_order :
    (∀ a b c : Region, a.valid → b.valid → c.valid →
      a.is_covered_by b = true → b.is_covered_by c = true →
      a.is_covered_by c = true) ∧
    (∀ a b : Region, a.valid → b.valid →
      a.is_covered_by b = true → b.is_covered_by a = true → a = b) := by
  constructor
  · intro a b c _ _ _ hab hbc
    simp only [Region.is_covered_by, Bool.and_eq_true, decide_eq_true_eq,
      ge_iff_le] at hab hbc ⊢
    omega
  · intro a b _ _ hab hba
    simp only [Region.is_covered_by, Bool.and_eq_true, decide_eq_true_eq,
      ge_iff_le] at hab hba
    cases a; cases b
    simp_all only [Region.mk.injEq]
    omega

/-- Witness for C9 at concrete valid regions. -/
theorem is_covered_by_partial_order_witness :
    Region.is_covered_by ⟨2, 2, 3, 3⟩ ⟨0, 0, 9, 9⟩ = true ∧
      (⟨2, 2, 3, 3⟩ : Region) = ⟨2, 2, 3, 3⟩ :=
  ⟨is_covered_by_partial_order.1 ⟨2, 2, 3, 3⟩ ⟨1, 1, 4, 4⟩ ⟨0, 0, 9, 9⟩
      (by decide) (by decide) (by decide) (by decide) (by decide),
    is_covered_by_partial_order.2 ⟨2, 2, 3, 3⟩ ⟨2, 2, 3, 3⟩
      (by decide) (by decide) (by decide) (by decide)⟩

/-- C10: a bound-inverted region is not treated as empty by
`intersects_with`: `D = (5,0,0,0)` has `min_x > max_x`, `is_inside` is
false at every point of the plane, yet `D.intersects_with B` is true for
`B = (0,0,10,10)`. -/
theorem inverted_region_still_intersects :
    (Region.min_x ⟨5, 0, 0, 0⟩ > Region.max_x ⟨5, 0, 0, 0⟩) ∧
    (∀ p : Int × Int, Region.is_inside ⟨5, 0, 0, 0⟩ p = false) ∧
    Region.intersects_with ⟨5, 0, 0, 0⟩ ⟨0, 0, 10, 10⟩ = true := by
  refine ⟨by decide, ?_, by decide⟩
  intro p
  simp only [Region.is_inside]
  by_cases h : (5 : Int) ≤ p.1
  · by_cases h' : p.1 ≤ (0 : Int)
    · omega
    · simp [h']
  · simp [h]

/-- C1: for every region `R` with ordered bounds and every list of covers
with ordered bounds, `R.get_uncovered_regions covers` is a list of
pairwise non-overlapping rectangles whose union (as a set of integer
points, inclusive bounds) is exactly the set of points of `R` lying in no
cover: no uncovered point of `R` is missing, and no covered or outside
point appears. -/
theorem get_uncovered_regions_exact (R : Region) (covers : List Region)
    (hR : R.valid) (hcov : ∀ c ∈ covers, c.valid) :
    List.Pairwise Region.noOverlap (R.get_uncovered_regions covers) ∧
    ∀ p : Int × Int,
      (∃ f ∈ R.get_uncovered_regions covers, f.is_inside p = true) ↔
        (R.is_inside p = true ∧ ∀ c ∈ covers, c.is_inside p = false) := by
  obtain ⟨hv, hpw, hun⟩ := Region.foldl_cover_one_props covers [R] hcov
    (by simpa using hR) (List.pairwise_singleton _ _)
  refine ⟨hpw, fun p => (hun p).trans ?_⟩
  constructor
  · rintro ⟨⟨u, hu, hp⟩, hall⟩
    rw [List.mem_singleton] at hu
    subst hu
    exact ⟨hp, hall⟩
  · rintro ⟨hp, hall⟩
    exact ⟨⟨R, List.mem_singleton.2 rfl, hp⟩, hall⟩

/-- Witness for C1 at a concrete region and cover list. -/
theorem get_uncovered_regions_exact_witness :
    Region.valid ⟨0, 0, 1, 1⟩ ∧ (∀ c ∈ [(⟨1, 0, 5, 5⟩ : Region)], c.valid) ∧
      (List.Pairwise Region.noOverlap
        (Region.get_uncovered_regions ⟨0, 0, 1, 1⟩ [⟨1, 0, 5, 5⟩]) ∧
      ∀ p : Int × Int,
        (∃ f ∈ Region.get_uncovered_regions ⟨0, 0, 1, 1⟩ [⟨1, 0, 5, 5⟩],
            f.is_inside p = true) ↔
          (Region.is_inside ⟨0, 0, 1, 1⟩ p = true ∧
            ∀ c ∈ [(⟨1, 0, 5, 5⟩ : Region)], c.is_inside p = false)) :=
  ⟨by decide, by decide,
    get_uncovered_regions_exact ⟨0, 0, 1, 1⟩ [⟨1, 0, 5, 5⟩] (by decide) (by decide)⟩

/-- C3: for every region `R` with ordered bounds and every list of covers
with ordered bounds, every rectangle returned by
`R.get_uncovered_regions covers` has `min_x <= max_x` and
`min_y <= max_y`: no bound-inverted (empty) region is ever emitted. -/
theorem get_uncovered_regions_all_valid (R : Region) (covers : List Region)
    (hR : R.valid) (hcov : ∀ c ∈ covers, c.valid) :
    ∀ f ∈ R.get_uncovered_regions covers, f.valid :=
  (Region.foldl_cover_one_props covers [R] hcov
    (by simpa using hR) (List.pairwise_singleton _ _)).1

/-- Witness for C3 at a concrete region, cover list and emitted
rectangle. -/
theorem get_uncovered_regions_all_valid_witness :
    (⟨0, 0, 0, 2⟩ : Region) ∈ Region.get_uncovered_regions ⟨0, 0, 2, 2⟩ [⟨1, 1, 5, 5⟩] ∧
      Region.valid ⟨0, 0, 0, 2⟩ :=
  ⟨by decide,
    get_uncovered_regions_all_valid ⟨0, 0, 2, 2⟩ [⟨1, 1, 5, 5⟩] (by decide) (by decide)
      ⟨0, 0, 0, 2⟩ (by decide)⟩

/-- The iteration never changes which cells are alive. -/
theorem forEachCellGo_alive {S T : Type} (f : S → Nat → T → CellVisit S T) :
    ∀ (l : List Nat) (h : Heap T) (s : S),
      (forEachCellGo f l h s).heap.alive = h.alive := by
  intro l
  induction l with
  | nil => intro h s; rfl
  | cons e rest ih =>
    intro h s
    cases he : h.alive e <;> simp only [forEachCellGo, he, if_true, if_false,
      Bool.false_eq_true, reduceIte] <;> exact ih _ _

/-- The closure of `for_each_cell` is invoked exactly on the entries
whose cell is alive, once each, in list order. -/
theorem forEachCellGo_visited {S T : Type} (f : S → Nat → T → CellVisit S T) :
    ∀ (l : List Nat) (h : Heap T) (s : S),
      (forEachCellGo f l h s).visited = l.filter h.alive := by
  intro l
  induction l with
  | nil => intro h s; rfl
  | cons e rest ih =>
    intro h s
    cases he : h.alive e <;>
      simp [forEachCellGo, he, List.filter_cons, ih]

/-- The surviving entries of a `for_each_cell` call form a sublist of
the alive entries, in order. -/
theorem forEachCellGo_vec_sublist {S T : Type} (f : S → Nat → T → CellVisit S T) :
    ∀ (l : List Nat) (h : Heap T) (s : S),
      (forEachCellGo f l h s).vec.Sublist (l.filter h.alive) := by
  intro l
  induction l with
  | nil => intro h s; simp [forEachCellGo]
  | cons e rest ih =>
    intro h s
    cases he : h.alive e <;> simp only [forEachCellGo, he, if_true, if_false,
      Bool.false_eq_true, reduceIte, List.filter_cons]
    · exact ih _ _
    · cases hrm : (f s e (h.value e)).remove <;> simp [hrm]
      · exact ih _ _
      · exact List.Sublist.cons e (ih _ _)

/-- Every entry surviving a `for_each_cell` call is alive: dead entries
are always removed. -/
theorem forEachCellGo_vec_alive {S T : Type} (f : S → Nat → T → CellVisit S T)
    (l : List Nat) (h : Heap T) (s : S) :
    ∀ e ∈ (forEachCellGo f l h s).vec, h.alive e = true :=
  fun _ he =>
    (List.mem_filter.1 ((forEachCellGo_vec_sublist f l h s).subset he)).2

/-- When the closure's removal decision is a function of the entry id
alone, the surviving entries are exactly the alive entries the decision
keeps. -/
theorem forEachCellGo_vec_eq_filter {S T : Type}
    (f : S → Nat → T → CellVisit S T) (d : Nat → Bool)
    (hd : ∀ (s : S) (e : Nat) (t : T), (f s e t).remove = d e) :
    ∀ (l : List Nat) (h : Heap T) (s : S),
      (forEachCellGo f l h s).vec = l.filter (fun e => h.alive e && !(d e)) := by
  intro l
  induction l with
  | nil => intro h s; rfl
  | cons e rest ih =>
    intro h s
    cases he : h.alive e <;> simp only [forEachCellGo, he, if_true, if_false,
      Bool.false_eq_true, reduceIte, List.filter_cons, hd]
    · simp [ih]
    · cases hde : d e <;> simp [hde, ih]

/-- Number of kept entries: filtering keeps length minus the number of
rejected entries. -/
theorem length_filter_eq_sub {α : Type} (p : α → Bool) (l : List α) :
    (l.filter p).length = l.length - (l.filter (fun a => !(p a))).length := by
  induction l with
  | nil => rfl
  | cons a l ih =>
    have hle := List.length_filter_le (fun a => !(p a)) l
    cases hp : p a <;> (simp [List.filter_cons, hp, ih]; try omega)

/-- Meta variant of `forEachCellGo_alive`. -/
theorem forEachMetaCellGo_alive {S T M : Type}
    (f : S → Nat → T → M → MetaCellVisit S T M) :
    ∀ (l : List (Nat × M)) (h : Heap T) (s : S),
      (forEachMetaCellGo f l h s).heap.alive = h.alive := by
  intro l
  induction l with
  | nil => intro h s; rfl
  | cons q rest ih =>
    intro h s
    obtain ⟨e, m⟩ := q
    cases he : h.alive e <;> simp only [forEachMetaCellGo, he, if_true, if_false,
      Bool.false_eq_true, reduceIte] <;> exact ih _ _

/-- Meta variant of `forEachCellGo_visited`: the closure is invoked
exactly on the alive entries, in order, and each is presented with the
metadata currently stored alongside its handle. -/
theorem forEachMetaCellGo_visited {S T M : Type}
    (f : S → Nat → T → M → MetaCellVisit S T M) :
    ∀ (l : List (Nat × M)) (h : Heap T) (s : S),
      (forEachMetaCellGo f l h s).visited = l.filter (fun q => h.alive q.1) := by
  intro l
  induction l with
  | nil => intro h s; rfl
  | cons q rest ih =>
    intro h s
    obtain ⟨e, m⟩ := q
    cases he : h.alive e <;>
      simp [forEachMetaCellGo, he, List.filter_cons, ih]

/-- Every entry surviving a meta `for_each_cell` call is alive. -/
theorem forEachMetaCellGo_vec_alive {S T M : Type}
    (f : S → Nat → T → M → MetaCellVisit S T M) :
    ∀ (l : List (Nat × M)) (h : Heap T) (s : S),
      ∀ q ∈ (forEachMetaCellGo f l h s).vec, h.alive q.1 = true := by
  intro l
  induction l with
  | nil => intro h s q hq; simp [forEachMetaCellGo] at hq
  | cons q0 rest ih =>
    intro h s q hq
    obtain ⟨e, m⟩ := q0
    cases he : h.alive e <;> simp only [forEachMetaCellGo, he, if_true, if_false,
      Bool.false_eq_true, reduceIte] at hq
    · exact ih _ _ q hq
    · cases hrm : (f s e (h.value e) m).remove <;> simp [hrm] at hq
      · rcases hq with rfl | hq
        · exact he
        · exact ih ⟨h.alive, fun i => if i = e then (f s e (h.value e) m).value else h.value i⟩
            (f s e (h.value e) m).state q hq
      · exact ih ⟨h.alive, fun i => if i = e then (f s e (h.value e) m).value else h.value i⟩
          (f s e (h.value e) m).state q hq

/-- A metadata-preserving, never-removing closure leaves exactly the
alive entries, with their original metadata, in order. -/
theorem forEachMetaCellGo_vec_preserving {S T M : Type}
    (f : S → Nat → T → M → MetaCellVisit S T M)
    (hf : ∀ (s : S) (e : Nat) (t : T) (m : M),
      (f s e t m).metadata = m ∧ (f s e t m).remove = false) :
    ∀ (l : List (Nat × M)) (h : Heap T) (s : S),
      (forEachMetaCellGo f l h s).vec = l.filter (fun q => h.alive q.1) := by
  intro l
  induction l with
  | nil => intro h s; rfl
  | cons q0 rest ih =>
    intro h s
    obtain ⟨e, m⟩ := q0
    cases he : h.alive e <;> simp only [forEachMetaCellGo, he, if_true, if_false,
      Bool.false_eq_true, reduceIte, List.filter_cons]
    · simp [ih]
    · simp [(hf s e (h.value e) m).1, (hf s e (h.value e) m).2, ih]

/-- A never-removing closure keeps exactly the alive handles (their
metadata possibly updated), in order. -/
theorem forEachMetaCellGo_vec_fst {S T M : Type}
    (f : S → Nat → T → M → MetaCellVisit S T M)
    (hf : ∀ (s : S) (e : Nat) (t : T) (m : M), (f s e t m).remove = false) :
    ∀ (l : List (Nat × M)) (h : Heap T) (s : S),
      ((forEachMetaCellGo f l h s).vec).map Prod.fst =
        (l.filter (fun q => h.alive q.1)).map Prod.fst := by
  intro l
  induction l with
  | nil => intro h s; rfl
  | cons q0 rest ih =>
    intro h s
    obtain ⟨e, m⟩ := q0
    cases he : h.alive e <;> simp only [forEachMetaCellGo, he, if_true, if_false,
      Bool.false_eq_true, reduceIte, List.filter_cons]
    · simp [ih]
    · simp [hf s e (h.value e) m, ih]

/-- C5: for a registry (`WeakVec` or `WeakMetaVec`) holding N entries of
which K are dead at call time, each of `for_each`, `for_each_mut` and
`for_each_cell` invokes the visitor on exactly the N−K alive entries,
each once, in insertion order, and every dead entry is removed without
being visited (every surviving entry is alive). -/
theorem for_each_variants_visit_exactly_alive {S T M : Type}
    (w : WeakVec) (wm : WeakMetaVec M) (h : Heap T) (s : S)
    (f : S → Nat → T → CellVisit S T) (g : S → T → S) (g2 : S → T → S × T)
    (fm : S → Nat → T → M → MetaCellVisit S T M) (gm : S → T → M → S)
    (gm2 : S → T → M → S × T × M) :
    (w.for_each_cell h s f).visited = w.vec.filter h.alive ∧
    (w.for_each h s g).visited = w.vec.filter h.alive ∧
    (w.for_each_mut h s g2).visited = w.vec.filter h.alive ∧
    (wm.for_each_cell h s fm).visited = wm.vec.filter (fun q => h.alive q.1) ∧
    (wm.for_each h s gm).visited = wm.vec.filter (fun q => h.alive q.1) ∧
    (wm.for_each_mut h s gm2).visited = wm.vec.filter (fun q => h.alive q.1) ∧
    (w.for_each_cell h s f).visited.length =
      w.vec.length - (w.vec.filter (fun e => !(h.alive e))).length ∧
    (∀ e ∈ (w.for_each_cell h s f).vec, h.alive e = true) ∧
    (∀ q ∈ (wm.for_each_cell h s fm).vec, h.alive q.1 = true) :=
  ⟨forEachCellGo_visited f w.vec h s,
   forEachCellGo_visited _ w.vec h s,
   forEachCellGo_visited _ w.vec h s,
   forEachMetaCellGo_visited fm wm.vec h s,
   forEachMetaCellGo_visited _ wm.vec h s,
   forEachMetaCellGo_visited _ wm.vec h s,
   by rw [show (w.for_each_cell h s f).visited = w.vec.filter h.alive from
        forEachCellGo_visited f w.vec h s]
      exact length_filter_eq_sub _ _,
   forEachCellGo_vec_alive f w.vec h s,
   forEachMetaCellGo_vec_alive fm wm.vec h s⟩

/-- C6: if the `for_each_cell` visitor requests removal for exactly the
single alive entry `target` (and for no other entry), then after the
call `target` is gone from the registry and from every subsequent
iteration, while every other alive entry survives with its relative
order unchanged. -/
theorem for_each_cell_removes_requested_entry {S T : Type}
    (w : WeakVec) (h : Heap T) (s : S) (f : S → Nat → T → CellVisit S T)
    (target : Nat) (_hmem : target ∈ w.vec) (_hcount : w.vec.count target = 1)
    (_halive : h.alive target = true)
    (hdec : ∀ (s' : S) (e : Nat) (t : T), (f s' e t).remove = (e == target)) :
    target ∉ (w.for_each_cell h s f).vec ∧
    (w.for_each_cell h s f).vec =
      w.vec.filter (fun e => h.alive e && !(e == target)) ∧
    ∀ (S' : Type) (s' : S') (f' : S' → Nat → T → CellVisit S' T) (h' : Heap T),
      target ∉ (forEachCellGo f' (w.for_each_cell h s f).vec h' s').visited := by
  have hvec := forEachCellGo_vec_eq_filter f (fun e => e == target) hdec w.vec h s
  refine ⟨?_, hvec, ?_⟩
  · rw [show (w.for_each_cell h s f).vec = _ from hvec]
    intro hmem2
    rw [List.mem_filter] at hmem2
    simp at hmem2
  · intro S' s' f' h'
    rw [forEachCellGo_visited]
    intro hmem2
    rw [List.mem_filter] at hmem2
    have hmem3 := hmem2.1
    rw [show (w.for_each_cell h s f).vec = _ from hvec] at hmem3
    rw [List.mem_filter] at hmem3
    simp at hmem3

/-- Witness for C6 at a concrete registry: the visitor removes the alive
entry 2 from [1, 2, 3]. -/
theorem for_each_cell_removes_requested_entry_witness :
    (2 ∈ [1, 2, 3]) ∧
      2 ∉ (WeakVec.for_each_cell ⟨[1, 2, 3]⟩ ⟨fun _ => true, fun _ => 0⟩ (0 : Nat)
        (fun s' e t => ⟨s' + t, t, e == 2⟩)).vec :=
  ⟨by decide,
    (for_each_cell_removes_requested_entry ⟨[1, 2, 3]⟩ ⟨fun _ => true, fun _ => 0⟩
      (0 : Nat) (fun s' e t => ⟨s' + t, t, e == 2⟩) 2
      (by decide) (by decide) rfl (fun _ _ _ => rfl)).1⟩

/-- C7: `for_each` and `for_each_mut` (both variants) are exactly
`for_each_cell` applied to a wrapper closure that invokes the visitor on
the borrowed value and always returns `false`; consequently they never
remove an alive entry — after the call the registry holds exactly the
alive entries, in order. -/
theorem for_each_wrappers_are_for_each_cell {S T M : Type}
    (w : WeakVec) (wm : WeakMetaVec M) (h : Heap T) (s : S)
    (g : S → T → S) (g2 : S → T → S × T) (gm : S → T → M → S)
    (gm2 : S → T → M → S × T × M) :
    w.for_each h s g = w.for_each_cell h s (fun s' _ t => ⟨g s' t, t, false⟩) ∧
    w.for_each_mut h s g2 =
      w.for_each_cell h s (fun s' _ t => ⟨(g2 s' t).1, (g2 s' t).2, false⟩) ∧
    wm.for_each h s gm =
      wm.for_each_cell h s (fun s' _ t m => ⟨gm s' t m, t, m, false⟩) ∧
    wm.for_each_mut h s gm2 =
      wm.for_each_cell h s (fun s' _ t m =>
        ⟨(gm2 s' t m).1, (gm2 s' t m).2.1, (gm2 s' t m).2.2, false⟩) ∧
    (w.for_each h s g).vec = w.vec.filter h.alive ∧
    (w.for_each_mut h s g2).vec = w.vec.filter h.alive ∧
    (wm.for_each h s gm).vec = wm.vec.filter (fun q => h.alive q.1) ∧
    ((wm.for_each_mut h s gm2).vec).map Prod.fst =
      (wm.vec.filter (fun q => h.alive q.1)).map Prod.fst := by
  refine ⟨rfl, rfl, rfl, rfl, ?_, ?_, ?_, ?_⟩
  · have hv := forEachCellGo_vec_eq_filter
      (fun s' (_ : Nat) t => (⟨g s' t, t, false⟩ : CellVisit S T))
      (fun _ => false) (fun _ _ _ => rfl) w.vec h s
    simpa using hv
  · have hv := forEachCellGo_vec_eq_filter
      (fun s' (_ : Nat) t => (⟨(g2 s' t).1, (g2 s' t).2, false⟩ : CellVisit S T))
      (fun _ => false) (fun _ _ _ => rfl) w.vec h s
    simpa using hv
  · exact forEachMetaCellGo_vec_preserving _ (fun _ _ _ _ => ⟨rfl, rfl⟩) wm.vec h s
  · exact forEachMetaCellGo_vec_fst _ (fun _ _ _ _ => rfl) wm.vec h s

/-- Pairing through one call with a fully arbitrary closure
(metadata-mutating and removal-requesting included): the registry left
behind by `for_each_cell` consists of exactly the visited entries the
closure kept, in order, each handle paired with the metadata value the
closure returned for that same entry's visit. -/
theorem forEachMetaCellGo_vec_pairing {S T M : Type}
    (f : S → Nat → T → M → MetaCellVisit S T M) :
    ∀ (l : List (Nat × M)) (h : Heap T) (s : S),
      (forEachMetaCellGo f l h s).vec =
        (((forEachMetaCellGo f l h s).visited).zip
            (replayVisits f (forEachMetaCellGo f l h s).visited h s)).filterMap
          (fun q => if q.2.remove then none else some (q.1.1, q.2.metadata)) := by
  intro l
  induction l with
  | nil => intro h s; rfl
  | cons q0 rest ih =>
    intro h s
    obtain ⟨e, m⟩ := q0
    cases he : h.alive e <;> simp only [forEachMetaCellGo, he, if_true, if_false,
      Bool.false_eq_true, reduceIte]
    · exact ih _ _
    · simp only [replayVisits, List.zip_cons_cons, List.filterMap_cons]
      cases hrm : (f s e (h.value e) m).remove <;>
        simp only [hrm, Bool.false_eq_true, reduceIte]
      · exact congrArg _ (ih _ _)
      · exact ih _ _

/-- C8: in a `WeakMetaVec` the pairing between each handle and the
metadata pushed with it is permanent, for fully arbitrary visitors
(metadata-mutating and removal-requesting included): every call
presents each visited entry with exactly the metadata stored alongside
its handle (the pushed value on the first call, as possibly mutated by
a previous call's visit to that same entry later), in order, whatever
other entries died or were removed; after the call the registry holds
exactly the visited entries the visitor kept, in order, each handle
paired with the metadata the visitor returned for that same entry's
visit; and the next call, with any visitor, presents exactly those
stored pairs again. -/
theorem weak_meta_vec_metadata_pairing {S T M : Type}
    (wm : WeakMetaVec M) (h : Heap T) (s : S)
    (f : S → Nat → T → M → MetaCellVisit S T M) :
    (wm.for_each_cell h s f).visited = wm.vec.filter (fun q => h.alive q.1) ∧
    (wm.for_each_cell h s f).vec =
      (((wm.for_each_cell h s f).visited).zip
          (replayVisits f (wm.for_each_cell h s f).visited h s)).filterMap
        (fun q => if q.2.remove then none else some (q.1.1, q.2.metadata)) ∧
    ∀ (S' : Type) (s' : S') (f' : S' → Nat → T → M → MetaCellVisit S' T M),
      ((WeakMetaVec.mk (wm.for_each_cell h s f).vec).for_each_cell
          (wm.for_each_cell h s f).heap s' f').visited =
        (wm.for_each_cell h s f).vec := by
  simp only [WeakMetaVec.for_each_cell]
  refine ⟨forEachMetaCellGo_visited f wm.vec h s,
    forEachMetaCellGo_vec_pairing f wm.vec h s, ?_⟩
  intro S' s' f'
  rw [forEachMetaCellGo_visited]
  simp only [forEachMetaCellGo_alive]
  exact List.filter_eq_self.2 (forEachMetaCellGo_vec_alive f wm.vec h s)

/-- Witness for C8 at a concrete registry: entry 1 is dead, the visitor
mutates every visited entry's metadata (`m + 1`) and requests removal
of entry 2; entry 0 survives paired with its mutated metadata, and the
next call presents exactly that pair. -/
theorem weak_meta_vec_metadata_pairing_witness :
    (WeakMetaVec.for_each_cell ⟨[(0, 10), (1, 20), (2, 30)]⟩
        ⟨fun e => e != 1, fun _ => 0⟩ (0 : Nat)
        (fun s' e t m => ⟨s' + m, t, m + 1, e == 2⟩)).visited = [(0, 10), (2, 30)] ∧
    (WeakMetaVec.for_each_cell ⟨[(0, 10), (1, 20), (2, 30)]⟩
        ⟨fun e => e != 1, fun _ => 0⟩ (0 : Nat)
        (fun s' e t m => ⟨s' + m, t, m + 1, e == 2⟩)).vec = [(0, 11)] ∧
    ((WeakMetaVec.mk (WeakMetaVec.for_each_cell ⟨[(0, 10), (1, 20), (2, 30)]⟩
        ⟨fun e => e != 1, fun _ => 0⟩ (0 : Nat)
        (fun s' e t m => ⟨s' + m, t, m + 1, e == 2⟩)).vec).for_each_cell
      (WeakMetaVec.for_each_cell ⟨[(0, 10), (1, 20), (2, 30)]⟩
        ⟨fun e => e != 1, fun _ => 0⟩ (0 : Nat)
        (fun s' e t m => ⟨s' + m, t, m + 1, e == 2⟩)).heap (0 : Nat)
      (fun s' e t m => ⟨s' + m, t, m + 1, e == 2⟩)).visited = [(0, 11)] :=
  ⟨(weak_meta_vec_metadata_pairing ⟨[(0, 10), (1, 20), (2, 30)]⟩
      ⟨fun e => e != 1, fun _ => 0⟩ (0 : Nat)
      (fun s' e t m => ⟨s' + m, t, m + 1, e == 2⟩)).1.trans (by decide),
   (weak_meta_vec_metadata_pairing ⟨[(0, 10), (1, 20), (2, 30)]⟩
      ⟨fun e => e != 1, fun _ => 0⟩ (0 : Nat)
      (fun s' e t m => ⟨s' + m, t, m + 1, e == 2⟩)).2.1.trans (by decide),
   ((weak_meta_vec_metadata_pairing ⟨[(0, 10), (1, 20), (2, 30)]⟩
      ⟨fun e => e != 1, fun _ => 0⟩ (0 : Nat)
      (fun s' e t m => ⟨s' + m, t, m + 1, e == 2⟩)).2.2 Nat (0 : Nat)
      (fun s' e t m => ⟨s' + m, t, m + 1, e == 2⟩)).trans (by decide)⟩
